import Mathlib

/-!
Verification of the DSA-Project search engine core (`app.py` dynamic indexer and
`search_engine.py` ranking engine) against its natural-language specification.

The Python code is shallowly embedded: Python `dict`s become insertion-ordered
association lists (assignment to an existing key updates the value in place,
assignment to a fresh key appends at the end, `del` removes the key), Python
`set`s become duplicate-free lists, and document/posting records become Lean
structures.  The external Porter stemmer is an opaque parameter `stem`, as the
spec declares the tokenizer/stemmer an external fixed contract.  Floating point
arithmetic from `math.log` / `math.pow` is modelled over the exact reals.
-/

namespace DSA

/-! ## Association lists (Python `dict` semantics) -/

/-- Models `dict[k]` lookup returning `none` when the key is absent. -/
def alookup {α β : Type} [DecidableEq α] : List (α × β) → α → Option β
  | [], _ => none
  | (a, b) :: t, k => if a = k then some b else alookup t k

/-- Models `dict[k] = v`: update in place when the key exists (keeping its position),
append at the end otherwise — Python dict insertion-order semantics. -/
def aupsert {α β : Type} [DecidableEq α] : List (α × β) → α → β → List (α × β)
  | [], k, v => [(k, v)]
  | (a, b) :: t, k, v => if a = k then (a, v) :: t else (a, b) :: aupsert t k v

/-- Models `del dict[k]`. -/
def adelete {α β : Type} [DecidableEq α] : List (α × β) → α → List (α × β)
  | [], _ => []
  | (a, b) :: t, k => if a = k then adelete t k else (a, b) :: adelete t k

/-- Models `dict.keys()` in insertion order. -/
def akeys {α β : Type} (l : List (α × β)) : List α := l.map Prod.fst

/-- Models `dict.get(k, d)`. -/
def agetD {α β : Type} [DecidableEq α] (l : List (α × β)) (k : α) (d : β) : β :=
  (alookup l k).getD d

theorem alookup_aupsert {α β : Type} [DecidableEq α]
    (l : List (α × β)) (k k' : α) (v : β) :
    alookup (aupsert l k v) k' = if k = k' then some v else alookup l k' := by
  induction l with
  | nil => simp [aupsert, alookup]
  | cons h t ih =>
    obtain ⟨a, b⟩ := h
    by_cases hak : a = k
    · subst hak
      by_cases hk' : a = k'
      · simp [aupsert, alookup, hk']
      · simp [aupsert, alookup, hk']
    · simp only [aupsert, if_neg hak, alookup]
      by_cases hak' : a = k'
      · subst hak'
        have hka : ¬ k = a := fun h => hak h.symm
        simp [hka]
      · simp [hak', ih]

theorem alookup_adelete {α β : Type} [DecidableEq α]
    (l : List (α × β)) (k k' : α) :
    alookup (adelete l k) k' = if k' = k then none else alookup l k' := by
  induction l with
  | nil => simp [adelete, alookup]
  | cons h t ih =>
    obtain ⟨a, b⟩ := h
    by_cases hak : a = k
    · subst hak
      by_cases hk' : k' = a
      · subst hk'
        simpa [adelete] using ih
      · have hak' : ¬ a = k' := fun h => hk' h.symm
        simp [adelete, alookup, hak', ih, hk']
    · by_cases hak' : a = k'
      · subst hak'
        have hk' : ¬ a = k := hak
        simp [adelete, alookup, hak, ih, fun h : a = k => hak h]
      · simp [adelete, alookup, hak, hak', ih]

theorem akeys_aupsert {α β : Type} [DecidableEq α]
    (l : List (α × β)) (k : α) (v : β) :
    akeys (aupsert l k v) = if k ∈ akeys l then akeys l else akeys l ++ [k] := by
  induction l with
  | nil => simp [aupsert, akeys]
  | cons h t ih =>
    obtain ⟨a, b⟩ := h
    by_cases hak : a = k
    · subst hak
      simp [aupsert, akeys]
    · have hka : ¬ k = a := fun h => hak h.symm
      simp only [aupsert, if_neg hak, akeys, List.map_cons] at ih ⊢
      by_cases hm : k ∈ akeys t
      · simp only [akeys] at hm ih
        simp [hm, ih, hka]
      · simp only [akeys] at hm ih
        simp [hm, ih, hka]

theorem mem_akeys_of_alookup {α β : Type} [DecidableEq α]
    {l : List (α × β)} {k : α} {v : β} (h : alookup l k = some v) : k ∈ akeys l := by
  induction l with
  | nil => simp [alookup] at h
  | cons hd t ih =>
    obtain ⟨a, b⟩ := hd
    by_cases hak : a = k
    · simp [akeys, hak]
    · simp only [alookup, if_neg hak] at h
      simp [akeys]
      exact Or.inr (by simpa [akeys] using ih h)

/-! ## Python strings

Python `str` values are modelled as lists of characters, with the string
operations the code uses (`strip`, `lower`, `split`, slicing) defined
structurally so that every concrete computation reduces in the kernel. -/

abbrev Str := List Char

/-- Python `str.strip()`: drop whitespace from both ends. -/
def pyStrip (s : Str) : Str :=
  ((s.dropWhile Char.isWhitespace).reverse.dropWhile Char.isWhitespace).reverse

/-- Python `str.lower()`. -/
def pyLower (s : Str) : Str := s.map Char.toLower

/-- Splitting worker: cut at every separator character. -/
def pySplitAux (p : Char → Bool) : List Char → List Char → List (List Char)
  | [], cur => [cur.reverse]
  | c :: cs, cur => if p c then cur.reverse :: pySplitAux p cs [] else pySplitAux p cs (c :: cur)

/-- Python `str.split()` (no argument): split on whitespace runs, dropping
empty pieces. -/
def pySplit (s : Str) : List Str :=
  (pySplitAux Char.isWhitespace s []).filter (fun w => w ≠ [])

/-! ## Data model: documents, tokens, posting entries (`app.py`) -/

/-- A document after upload parsing: the four fields handled by
`DynamicIndexer._normalize` ("ONLY 4 FIELDS: id, title, authors, abstract"). -/
structure Doc where
  id : Str
  title : Str
  authors : Str
  abstract : Str
deriving DecidableEq, Repr

/-- The three text fields tokenized by `DynamicIndexer._tokenize`
(`for field in ("title", "authors", "abstract")`). -/
inductive Field where
  | title
  | authors
  | abstract
deriving DecidableEq, Repr

/-- One token produced by `_tokenize`: `(stemmed, pos, field)`. -/
structure Token where
  word : Str
  pos : Nat
  field : Field
deriving DecidableEq, Repr

/-- A posting entry, the 6-slot array `[total_freq, positions, c2, c3, c4, c5]`
used by the forward index, barrel buffer and barrel files.  The indexer's
`field_map = {"title": 2, "authors": 3, "abstract": 4}` writes title counts to
`slot2`, authors counts to `slot3` and abstract counts to `slot4`; the search
engine's `FIELD_INDICES` reads slot 2 as title, 3 as authors, 4 as categories
and 5 as abstract. -/
structure PostingEntry where
  totalFreq : Nat
  positions : List Nat
  slot2 : Nat
  slot3 : Nat
  slot4 : Nat
  slot5 : Nat
deriving DecidableEq, Repr

/-- Models `[0, [], 0, 0, 0, 0]`, the fresh posting entry. -/
def emptyEntry : PostingEntry := ⟨0, [], 0, 0, 0, 0⟩

/-- One token's contribution to a posting entry:
`entry[0] += 1; entry[1].append(pos); entry[fmap[field]] += 1`
with `fmap = {"title": 2, "authors": 3, "abstract": 4}` (`app.py`). -/
def bumpEntry (e : PostingEntry) (pos : Nat) (f : Field) : PostingEntry :=
  let e1 := { e with totalFreq := e.totalFreq + 1, positions := e.positions ++ [pos] }
  match f with
  | .title => { e1 with slot2 := e1.slot2 + 1 }
  | .authors => { e1 with slot3 := e1.slot3 + 1 }
  | .abstract => { e1 with slot4 := e1.slot4 + 1 }

/-! ## Tokenization (`DynamicIndexer._tokenize`) -/

/-- Models `word = "".join(c for c in word if c.isalnum() or c == "-")`. -/
def cleanWord (w : Str) : Str :=
  w.filter (fun c => c.isAlphanum || c == '-')

/-- Tokenize the words of one field, threading the global position counter.
Words whose cleaned form has length ≤ 1 are skipped without consuming a
position (`if len(word) <= 1: continue`). -/
def tokenizeWords (stem : Str → Str) (f : Field) :
    List Str → Nat → List Token × Nat
  | [], pos => ([], pos)
  | w :: ws, pos =>
      let c := cleanWord w
      if c.length ≤ 1 then tokenizeWords stem f ws pos
      else
        let (ts, pos') := tokenizeWords stem f ws (pos + 1)
        (⟨stem c, pos, f⟩ :: ts, pos')

/-- Models `_tokenize`: lowercase each of title/authors/abstract in order, split,
clean, skip short words, stem; `pos` increases across the whole document.
(The code's `if not text: continue` is redundant: splitting the empty string
yields no words.) -/
def tokenize (stem : Str → Str) (d : Doc) : List Token :=
  let r1 := tokenizeWords stem .title (pySplit (pyLower d.title)) 0
  let r2 := tokenizeWords stem .authors (pySplit (pyLower d.authors)) r1.2
  let r3 := tokenizeWords stem .abstract (pySplit (pyLower d.abstract)) r2.2
  r1.1 ++ r2.1 ++ r3.1

/-! ## Indexer state (`DynamicIndexer`) -/

/-- In-memory state of `DynamicIndexer` (`app.py`).  `invertedIndex` maps a
term id to the *set* of doc ids containing it (`_update_inverted_index` uses
`inv[wid] = set(); inv[wid].add(doc_id)`), modelled as a duplicate-free list.
`commitCount` instruments how many times `_commit` has run. -/
structure IndexerState where
  lexicon : List (Str × Nat)
  nextTermId : Nat
  forwardIndex : List (Str × List (Nat × PostingEntry))
  invertedIndex : List (Nat × List Str)
  docMeta : List (Str × Doc)
  pendingCommits : List Str
  barrelBuffer : List (Char × List (Nat × List (Str × PostingEntry)))
  commitCount : Nat
deriving Repr

/-- A fresh indexer over empty persisted files: `next_term_id =
max(lexicon.values(), default=0) + 1 = 1`. -/
def initState : IndexerState :=
  { lexicon := [], nextTermId := 1, forwardIndex := [], invertedIndex := []
    docMeta := [], pendingCommits := [], barrelBuffer := [], commitCount := 0 }

/-- Models `self.batch_size = 10  # Commit every 10 docs for safety`. -/
def batchSize : Nat := 10

/-- Models `_normalize`: strip the id, raise `ValueError` (modelled as `none`) when it
is empty, truncate title/authors/abstract to 500/200/1000 characters. -/
def normalize (d : Doc) : Option Doc :=
  let i := pyStrip d.id
  if i = [] then none
  else some ⟨i, d.title.take 500, d.authors.take 200, d.abstract.take 1000⟩

/-- Models `self.lexicon[word]` after `_update_lexicon` has interned every token. -/
def lexId (lex : List (Str × Nat)) (w : Str) : Nat :=
  (alookup lex w).getD 0

/-- Models `_update_lexicon`: intern each unseen token word at the next free id. -/
def update_lexicon : List Token → List (Str × Nat) → Nat → List (Str × Nat) × Nat
  | [], lex, nid => (lex, nid)
  | t :: ts, lex, nid =>
      if (alookup lex t.word).isSome then update_lexicon ts lex nid
      else update_lexicon ts (lex ++ [(t.word, nid)]) (nid + 1)

/-- The per-document forward-index data built by `_update_forward_index`. -/
def buildFwdData (lex : List (Str × Nat)) :
    List Token → List (Nat × PostingEntry) → List (Nat × PostingEntry)
  | [], data => data
  | t :: ts, data =>
      let wid := lexId lex t.word
      buildFwdData lex ts (aupsert data wid (bumpEntry (agetD data wid emptyEntry) t.pos t.field))

/-- First occurrences of a list of words, in order.  Models Python's
`set(word for word, _, _ in tokens)`; a set's iteration order is unspecified,
so we fix first-occurrence order (none of the proved properties depend on it). -/
def dedupFirst (seen : List Str) : List Str → List Str
  | [] => []
  | w :: ws => if w ∈ seen then dedupFirst seen ws else w :: dedupFirst (w :: seen) ws

/-- Models `inv[wid].add(doc_id)` after `if wid not in inv: inv[wid] = set()`. -/
def addInv (inv : List (Nat × List Str)) (wid : Nat) (docId : Str) :
    List (Nat × List Str) :=
  match alookup inv wid with
  | none => inv ++ [(wid, [docId])]
  | some s => aupsert inv wid (if docId ∈ s then s else s ++ [docId])

/-- Models `_update_inverted_index`: add the doc id to every token word's entry.
(The list/dict re-normalization branches in the code only fire on data loaded
from disk; in-memory entries are already sets.) -/
def update_inverted_index (lex : List (Str × Nat)) (docId : Str)
    (tokens : List Token) (inv : List (Nat × List Str)) : List (Nat × List Str) :=
  (dedupFirst [] (tokens.map Token.word)).foldl (fun acc w => addInv acc (lexId lex w) docId) inv

/-- Models `word[0] if word and word[0].isalpha() else "#"`. -/
def wordLetter (w : Str) : Char :=
  match w with
  | [] => '#'
  | c :: _ => if c.isAlpha then c else '#'

/-- Barrel buffer: letter → term id → doc id → posting entry. -/
abbrev BarrelBuffer := List (Char × List (Nat × List (Str × PostingEntry)))

/-- Models `_buffer_barrel_updates`: accumulate each token into
`barrel_buffer[letter][wid][doc_id]` with the same bump as the forward index. -/
def buffer_barrel_updates (lex : List (Str × Nat)) (docId : Str) :
    List Token → BarrelBuffer → BarrelBuffer
  | [], buf => buf
  | t :: ts, buf =>
      let letter := wordLetter t.word
      let wid := lexId lex t.word
      let letterMap := agetD buf letter []
      let widMap := agetD letterMap wid []
      let entry := agetD widMap docId emptyEntry
      let widMap' := aupsert widMap docId (bumpEntry entry t.pos t.field)
      let letterMap' := aupsert letterMap wid widMap'
      buffer_barrel_updates lex docId ts (aupsert buf letter letterMap')

/-- Models `_commit` effect on in-memory state: the barrel buffer is flushed
(`self.barrel_buffer = {}`) and the commit counter ticks; lexicon, forward
index, inverted index and metadata are only serialized, not changed. -/
def commit (st : IndexerState) : IndexerState :=
  { st with barrelBuffer := [], commitCount := st.commitCount + 1 }

/-- Models `DynamicIndexer.add`: normalize (a `ValueError` is caught and yields
`False`), refuse duplicates, refuse empty token lists, otherwise update
lexicon, forward index, inverted index, barrel buffer and metadata, queue the
doc id, and auto-commit when the pending queue reaches `batch_size`
(`self._commit(); self.pending_commits = []`). -/
def add (stem : Str → Str) (st : IndexerState) (doc : Doc) :
    IndexerState × Bool :=
  match normalize doc with
  | none => (st, false)
  | some d =>
      if (alookup st.forwardIndex d.id).isSome then (st, false)
      else
        let tokens := tokenize stem d
        if tokens = [] then (st, false)
        else
          let (lex, nid) := update_lexicon tokens st.lexicon st.nextTermId
          let fwd := aupsert st.forwardIndex d.id (buildFwdData lex tokens [])
          let inv := update_inverted_index lex d.id tokens st.invertedIndex
          let buf := buffer_barrel_updates lex d.id tokens st.barrelBuffer
          let meta := aupsert st.docMeta d.id d
          let pending := st.pendingCommits ++ [d.id]
          let st1 := { st with
                        lexicon := lex
                        nextTermId := nid
                        forwardIndex := fwd
                        invertedIndex := inv
                        barrelBuffer := buf
                        docMeta := meta
                        pendingCommits := pending }
          if batchSize ≤ pending.length then
            ({ commit st1 with pendingCommits := [] }, true)
          else (st1, true)

/-- The loop body of `batch_add`, counting successes and failures. -/
def batch_add_go (stem : Str → Str) :
    IndexerState → List Doc → Nat → Nat → IndexerState × Nat × Nat
  | st, [], s, f => (st, s, f)
  | st, d :: ds, s, f =>
      let (st', ok) := add stem st d
      if ok then batch_add_go stem st' ds (s + 1) f
      else batch_add_go stem st' ds s (f + 1)

/-- Models `batch_add`: add each document in order, then always `_commit()` and clear
`pending_commits`; returns `(success, failed)`. -/
def batch_add (stem : Str → Str) (st : IndexerState) (docs : List Doc) :
    IndexerState × Nat × Nat :=
  let (st1, s, f) := batch_add_go stem st docs 0 0
  ({ commit st1 with pendingCommits := [] }, s, f)

/-- Models `self.inverted_index[wid].discard(doc_id); if not ...: del ...` for one
term id. -/
def dropDocOne (docId : Str) (inv : List (Nat × List Str)) (wid : Nat) :
    List (Nat × List Str) :=
  match alookup inv wid with
  | none => inv
  | some s =>
      let s' := s.filter (fun x => x ≠ docId)
      if s' = [] then adelete inv wid else aupsert inv wid s'

/-- The `for wid in doc_terms.keys()` loop of `remove`. -/
def dropDocFromInv (inv : List (Nat × List Str)) (wids : List Nat)
    (docId : Str) : List (Nat × List Str) :=
  wids.foldl (dropDocOne docId) inv

/-- Models `DynamicIndexer.remove`: failure on an absent id; otherwise drop the doc
from each referenced inverted-index entry (deleting entries that become
empty), delete the forward-index entry and the metadata.  The lexicon, the
pending queue and the barrel buffer are untouched, and no file is written. -/
def remove (st : IndexerState) (docId : Str) : IndexerState × Bool :=
  match alookup st.forwardIndex docId with
  | none => (st, false)
  | some terms =>
      ({ st with
          invertedIndex := dropDocFromInv st.invertedIndex (akeys terms) docId
          forwardIndex := adelete st.forwardIndex docId
          docMeta := adelete st.docMeta docId }, true)

/-- The indexer's mutating operations, for reachability statements. -/
inductive Op where
  | add (d : Doc)
  | remove (id : Str)
  | commit

/-- Run one operation (the result of `add`/`remove` is discarded). -/
def runOp (stem : Str → Str) (st : IndexerState) : Op → IndexerState
  | .add d => (add stem st d).1
  | .remove i => (remove st i).1
  | .commit => commit st

/-- Run a sequence of operations from a state. -/
def runOps (stem : Str → Str) (st : IndexerState) : List Op → IndexerState
  | [] => st
  | o :: os => runOps stem (runOp stem st o) os

/-! ## Commit persistence trace (`_commit`, `_save_json`,
`_update_barrel_file_batch`)

File writes performed by a commit are modelled as a trace of file-system
events carrying the real serialized data. -/

/-- The JSON value written to one file. -/
inductive Payload where
  | lex (l : List (Str × Nat))
  | fwd (f : List (Str × List (Nat × PostingEntry)))
  | inv (i : List (Nat × List Str))
  | meta (m : List Doc)
  | barrel (b : List (Nat × List (Str × PostingEntry)))
deriving DecidableEq

/-- A file-system event: a file write, or a rename of one path to another. -/
inductive FsOp where
  | write (path : Str) (data : Payload)
  | rename (src dst : Str)
deriving DecidableEq

/-- Models `_save_json`: write the data to `path + '.tmp'`, then `os.replace` the
temporary file onto the final path. -/
def save_json_ops (path : Str) (p : Payload) : List FsOp :=
  [.write (path ++ ".tmp".data) p, .rename (path ++ ".tmp".data) path]

/-- Models `os.path.join(self.barrels_folder, f"{letter}.json")`. -/
def barrelPath (c : Char) : Str := "barrels/".data ++ [c] ++ ".json".data

/-- Merge one term's buffered doc entries into the on-disk barrel data:
`barrel[wid][doc_id] = entry`. -/
def mergeBarrelWid (cur des : List (Str × PostingEntry)) : List (Str × PostingEntry) :=
  des.foldl (fun acc de => aupsert acc de.1 de.2) cur

/-- Models `_update_barrel_file_batch` merging step over all buffered term ids. -/
def mergeBarrel (barrel : List (Nat × List (Str × PostingEntry)))
    (wd : List (Nat × List (Str × PostingEntry))) :
    List (Nat × List (Str × PostingEntry)) :=
  wd.foldl (fun b p => aupsert b p.1 (mergeBarrelWid (agetD b p.1 []) p.2)) barrel

/-- Models `_update_barrel_file_batch`: load the existing barrel (`disk`), merge the
buffered data, and write the merged barrel *directly* to its final path
(`open(path, "w")` followed by `json.dump` — no temporary file). -/
def update_barrel_file_batch_ops (disk : Char → List (Nat × List (Str × PostingEntry)))
    (c : Char) (wd : List (Nat × List (Str × PostingEntry))) : List FsOp :=
  [.write (barrelPath c) (.barrel (mergeBarrel (disk c) wd))]

/-- Models `_flush_barrel_buffer`: one barrel write per buffered letter. -/
def flush_barrel_buffer_ops (disk : Char → List (Nat × List (Str × PostingEntry)))
    (buf : BarrelBuffer) : List FsOp :=
  (buf.map (fun p => update_barrel_file_batch_ops disk p.1 p.2)).flatten

/-- The file-system events of one `_commit`: flush the barrel buffer, then
save lexicon, forward index, inverted index (serialized as term id → doc-id
list, `{k: list(v)}`) and metadata (`list(self.doc_meta.values())`). -/
def commit_trace (disk : Char → List (Nat × List (Str × PostingEntry)))
    (st : IndexerState) : List FsOp :=
  flush_barrel_buffer_ops disk st.barrelBuffer
    ++ save_json_ops "lexicon.json".data (.lex st.lexicon)
    ++ save_json_ops "forward_index.json".data (.fwd st.forwardIndex)
    ++ save_json_ops "inverted_index.json".data (.inv st.invertedIndex)
    ++ save_json_ops "arxiv_100k.json".data (.meta (st.docMeta.map Prod.snd))

/-- Does a path end in `.tmp`? -/
def isTmpPath (p : Str) : Bool := p.reverse.take 4 == ".tmp".data.reverse

/-- The claim's atomicity property for one event of a trace: every write goes
to a `.tmp` path that the trace later renames onto the corresponding final
path (drop the 4-character `.tmp` suffix). -/
def opAtomicIn (t : List FsOp) : FsOp → Bool
  | .write p _ => isTmpPath p && t.contains (FsOp.rename p (p.take (p.length - 4)))
  | .rename _ _ => true

/-- Claim C4 as stated: every file write performed by a commit is atomic
(temporary path plus rename). -/
def commitWritesAtomic (disk : Char → List (Nat × List (Str × PostingEntry)))
    (st : IndexerState) : Prop :=
  ∀ op ∈ commit_trace disk st, opAtomicIn (commit_trace disk st) op = true

/-! ## Search engine (`search_engine.py`)

Scores are floats in the code, modelled over the exact reals; `math.log` is
`Real.log` and `math.pow` is real exponentiation. -/

/-- Stable descending insertion of `x` into a list already sorted by `key`
descending: `x` is placed before the first element whose key is not greater,
so equal-keyed elements keep their original relative order — the semantics of
Python's stable `sorted(..., reverse=True)`. -/
def insDesc {α β : Type} [LinearOrder β] (key : α → β) (x : α) : List α → List α
  | [] => [x]
  | y :: ys => if key y ≤ key x then x :: y :: ys else y :: insDesc key x ys

/-- Python `sorted(l, key=key, reverse=True)` (stable). -/
def sortDesc {α β : Type} [LinearOrder β] (key : α → β) : List α → List α
  | [] => []
  | x :: xs => insDesc key x (sortDesc key xs)

/-- Models `score_doc(entry, idf)`: `(Σ_field entry[FIELD_INDICES[field]] × weight) ×
(1 + log(1 + total_freq)) × idf` with `FIELD_WEIGHTS = {title: 3.0,
authors: 2.0, categories: 1.5, abstract: 1.0}` read at `FIELD_INDICES`
2/3/4/5. -/
noncomputable def score_doc (e : PostingEntry) (idf : ℝ) : ℝ :=
  ((e.slot2 : ℝ) * 3.0 + (e.slot3 : ℝ) * 2.0 + (e.slot4 : ℝ) * 1.5 + (e.slot5 : ℝ) * 1.0)
    * (1 + Real.log (1 + (e.totalFreq : ℝ))) * idf

/-- Models `math.log(len(raw_docs) / (1 + len(p)))`: the IDF of a term whose postings
map is `p`, over a corpus of `N` metadata documents. -/
noncomputable def idfOf (N : Nat) (p : List (Str × PostingEntry)) : ℝ :=
  Real.log ((N : ℝ) / (1 + (p.length : ℝ)))

/-- Models `postings_map = {w: get_postings(w) for w in words if get_postings(w)}`:
words with non-empty postings, first occurrences in query order (a repeated
word overwrites its entry with the same value, keeping its position). -/
def pmapOf (words : List Str) (postings : Str → List (Str × PostingEntry)) :
    List (Str × List (Str × PostingEntry)) :=
  (dedupFirst [] (words.filter (fun w => postings w ≠ []))).map (fun w => (w, postings w))

/-- The inner loop `for d, e in p.items(): scores[d] += score_doc(e, idf[w]);
counts[d] += 1` (`scores` and `counts` are defaultdicts). -/
noncomputable def scoreFoldDocs (idf : ℝ) :
    List (Str × PostingEntry) → List (Str × ℝ) → List (Str × Nat) →
    List (Str × ℝ) × List (Str × Nat)
  | [], sc, cnt => (sc, cnt)
  | (d, e) :: rest, sc, cnt =>
      scoreFoldDocs idf rest (aupsert sc d (agetD sc d 0 + score_doc e idf))
        (aupsert cnt d (agetD cnt d 0 + 1))

/-- The outer loop `for w, p in postings_map.items()`. -/
noncomputable def scoreFoldTerms (N : Nat) :
    List (Str × List (Str × PostingEntry)) → List (Str × ℝ) → List (Str × Nat) →
    List (Str × ℝ) × List (Str × Nat)
  | [], sc, cnt => (sc, cnt)
  | (_, p) :: rest, sc, cnt =>
      let r := scoreFoldDocs (idfOf N p) p sc cnt
      scoreFoldTerms N rest r.1 r.2

/-- Models `for d in scores: scores[d] *= math.pow(2, counts[d] / len(words) * 2)`. -/
noncomputable def applyBonus (qlen : Nat) (sc : List (Str × ℝ)) (cnt : List (Str × Nat)) :
    List (Str × ℝ) :=
  sc.map (fun ds => (ds.1, ds.2 * (2 : ℝ) ^ (((agetD cnt ds.1 0 : Nat) : ℝ) / (qlen : ℝ) * 2)))

/-- The aggregate score map of `multi_word_search` before ranking, including
the early returns for an empty query and an empty postings map. -/
noncomputable def finalScores (N : Nat) (words : List Str)
    (postings : Str → List (Str × PostingEntry)) : List (Str × ℝ) :=
  if words = [] then []
  else
    let pmap := pmapOf words postings
    if pmap = [] then []
    else
      let r := scoreFoldTerms N pmap [] []
      applyBonus words.length r.1 r.2

/-- Models `multi_word_search`: rank the aggregate scores descending (stable sort on
the score) and keep the top `top_k` as an insertion-ordered dict. -/
noncomputable def multi_word_search (N : Nat) (words : List Str)
    (postings : Str → List (Str × PostingEntry)) (top_k : Nat) : List (Str × ℝ) :=
  (sortDesc Prod.snd (finalScores N words postings)).take top_k

/-- Models `normalize_scores`: min-max normalize to `[0,1]`, mapping every score to
`1.0` when all scores are equal. -/
noncomputable def normalize_scores : List (Str × ℝ) → List (Str × ℝ)
  | [] => []
  | (d0, s0) :: rest =>
      let mn := rest.foldl (fun a x => min a x.2) s0
      let mx := rest.foldl (fun a x => max a x.2) s0
      if mn = mx then ((d0, s0) :: rest).map (fun x => (x.1, 1))
      else ((d0, s0) :: rest).map (fun x => (x.1, (x.2 - mn) / (mx - mn)))

/-- Models `hybrid_search` specialized to the execution path taken when no embeddings
file exists: `LazyDocEmbeddings.load()` returns `False` but sets
`loaded = True`, so `semantic_search` falls back to
`multi_word_search(query, top_k * 2)` and the `not doc_embeddings.loaded`
guard in `hybrid_search` cannot fire (when the keyword map is non-empty the
query has words, so `load()` was called).  The combination loop ranges over
`set(nkw) | set(nse)`; both maps carry exactly the keyword result's keys, and
Python's unspecified set-iteration order is fixed here to the keyword map's
insertion order (the proved statements do not depend on the order, only on
the key set). -/
noncomputable def hybrid_search_noemb (N : Nat) (words : List Str)
    (postings : Str → List (Str × PostingEntry)) (top_k : Nat) (alpha : ℝ) :
    List (Str × ℝ) :=
  let kw := multi_word_search N words postings (top_k * 2)
  let se := multi_word_search N words postings (top_k * 2)
  if kw.isEmpty then se.take top_k
  else
    let nkw := normalize_scores kw
    let nse := normalize_scores se
    let combined := nkw.map (fun x => (x.1, (1 - alpha) * agetD nkw x.1 0 + alpha * agetD nse x.1 0))
    (sortDesc Prod.snd combined).take top_k

/-! ## Autocomplete trie (`search_engine.py`, `TrieNode` / `Trie`) -/

/-- A trie node: children (an insertion-ordered dict keyed by character),
`is_end`, the stored word, and its popularity frequency. -/
inductive TrieNode where
  | mk : List (Char × TrieNode) → Bool → Option Str → Nat → TrieNode
deriving Repr

/-- Models `TrieNode()`. -/
def emptyNode : TrieNode := .mk [] false none 0

/-- Python `str.isalpha()`: non-empty and all alphabetic. -/
def pyIsAlpha (w : Str) : Bool := !w.isEmpty && w.all Char.isAlpha

/-- The character walk of `Trie.insert`, creating children as needed and
finally marking the node as end-of-word with the stored word and frequency. -/
def insertChars (w : Str) (freq : Nat) : List Char → TrieNode → TrieNode
  | [], .mk cs _ _ _ => .mk cs true (some w) freq
  | c :: rest, .mk cs e wd f =>
      match alookup cs c with
      | some child => .mk (aupsert cs c (insertChars w freq rest child)) e wd f
      | none => .mk (cs ++ [(c, insertChars w freq rest emptyNode)]) e wd f

/-- Models `Trie.insert(word, frequency)`: words shorter than 3 characters or not
purely alphabetic are rejected; the trie path follows `word.lower()`. -/
def trieInsert (t : TrieNode) (word : Str) (frequency : Nat) : TrieNode :=
  if word.length < 3 || !pyIsAlpha word then t
  else insertChars word frequency (pyLower word) t

/-- The prefix walk of `Trie.autocomplete`. -/
def walk : TrieNode → List Char → Option TrieNode
  | n, [] => some n
  | .mk cs _ _ _, c :: rest =>
      match alookup cs c with
      | none => none
      | some child => walk child rest

mutual
/-- The recursive `collect` closure of `Trie.autocomplete`: stop as soon as
the shared results list holds `cap` entries, append this node's word if it is
an end-of-word node with a truthy word, then recurse into the children in
insertion order. -/
def collect (cap : Nat) : TrieNode → List (Str × Nat) → List (Str × Nat)
  | .mk cs e wd f, acc =>
      if cap ≤ acc.length then acc
      else
        collectChildren cap cs
          (match e, wd with
           | true, some w => if w = [] then acc else acc ++ [(w, f)]
           | _, _ => acc)

/-- Models `for child in n.children.values(): collect(child)`. -/
def collectChildren (cap : Nat) : List (Char × TrieNode) → List (Str × Nat) → List (Str × Nat)
  | [], acc => acc
  | (_, t) :: rest, acc => collectChildren cap rest (collect cap t acc)
end

/-- Models `Trie.autocomplete(prefix, limit)`: empty for prefixes shorter than 2
characters or with no matching path; otherwise collect up to `limit * 2`
end-of-word descendants, sort by frequency descending (stable) and return the
top `limit` words. -/
def autocomplete (t : TrieNode) (pre : Str) (limit : Nat) : List Str :=
  if pre.length < 2 then []
  else
    match walk t (pyLower pre) with
    | none => []
    | some node =>
        let results := collect (limit * 2) node []
        ((sortDesc Prod.snd results).take limit).map Prod.fst

/-! ## Claim-side predicates and spec-side formulas -/

/-- The posting value the in-memory inverted index associates with a
(term id, doc id) pair.  `_update_inverted_index` stores
`inverted_index[wid]` as a *set of doc ids* (`inv[wid] = set()`,
`inv[wid].add(doc_id)`): membership of the doc id is recorded, but no posting
data (frequency, positions, per-field counts) exists there for the pair, so
the lookup of a posting value yields `none` for every pair. -/
def invPostingLookup (_st : IndexerState) (_wid : Nat) (_docId : Str) :
    Option PostingEntry :=
  none

/-- Claim C1 as stated: for every doc id and term id in the forward index,
the inverted index holds a value-equal posting for (term id, doc id) —
`forward[doc][term] == inverted[term][doc]`. -/
def mirrorValueEqual (st : IndexerState) : Prop :=
  ∀ d terms wid p, alookup st.forwardIndex d = some terms →
    alookup terms wid = some p → invPostingLookup st wid d = some p

/-- The membership mirror invariant that the code actually maintains: every
term id of every forward-index entry has an inverted-index entry containing
that doc id. -/
def mirrorMember (st : IndexerState) : Prop :=
  ∀ d terms, alookup st.forwardIndex d = some terms →
    ∀ wid, wid ∈ akeys terms → ∃ s, alookup st.invertedIndex wid = some s ∧ d ∈ s

/-- Spec-side IDF formula: `ln(N / (1 + df))`. -/
noncomputable def specIdf (N df : Nat) : ℝ :=
  Real.log ((N : ℝ) / (1 + (df : ℝ)))

/-- Spec-side per-document-per-term score:
`(Σ over fields of field_count × field_weight) × (1 + ln(1 + total_freq)) × IDF`
with weights title 3.0, authors 2.0, categories 1.5, abstract 1.0 (the search
engine reads title/authors/categories/abstract counts at slots 2/3/4/5). -/
noncomputable def specPerTermScore (e : PostingEntry) (idf : ℝ) : ℝ :=
  (3.0 * (e.slot2 : ℝ) + 2.0 * (e.slot3 : ℝ) + 1.5 * (e.slot4 : ℝ) + 1.0 * (e.slot5 : ℝ))
    * (1 + Real.log (1 + (e.totalFreq : ℝ))) * idf

/-- The number of query terms (with postings) whose postings mention `d`. -/
def matchedCount (pmap : List (Str × List (Str × PostingEntry))) (d : Str) : Nat :=
  (pmap.filter (fun wp => (alookup wp.2 d).isSome)).length

/-- Spec-side sum of the per-term scores of document `d`. -/
noncomputable def specTermSum (N : Nat) (pmap : List (Str × List (Str × PostingEntry)))
    (d : Str) : ℝ :=
  (pmap.map (fun wp =>
    match alookup wp.2 d with
    | some e => specPerTermScore e (specIdf N wp.2.length)
    | none => 0)).sum

/-- Spec-side aggregate score of document `d`:
`(Σ per-term scores) × 2 ^ (2 × matched_term_count / query_term_count)`. -/
noncomputable def specAggregate (N : Nat) (words : List Str)
    (postings : Str → List (Str × PostingEntry)) (d : Str) : ℝ :=
  specTermSum N (pmapOf words postings) d
    * (2 : ℝ) ^ (2 * (matchedCount (pmapOf words postings) d : ℝ) / (words.length : ℝ))

/-- Posting-entry invariant of claim C9: `total_freq == len(positions) ==
sum(per_field_count)` and strictly increasing positions. -/
def entryInv (e : PostingEntry) : Prop :=
  e.totalFreq = e.positions.length ∧
  e.totalFreq = e.slot2 + e.slot3 + e.slot4 + e.slot5 ∧
  e.positions.Chain' (· < ·)

/-! ## Concrete fixtures used by witnesses and counterexamples

The external stemmer is instantiated with the identity function; the claims
under test quantify over the stemmer or do not depend on it. -/

/-- Identity stemmer instantiation of the external stemming contract. -/
def idStem : Str → Str := fun w => w

/-- A one-word document. -/
def docMachine : Doc := ⟨"d1".data, "machine".data, [], []⟩

/-- The state after adding `docMachine` to a fresh indexer. -/
def stAfterAdd : IndexerState := (add idStem initState docMachine).1

/-- The state after adding `docMachine` and committing. -/
def stCommitted : IndexerState := runOps idStem initState [.add docMachine, .commit]

/-- Ten distinct valid documents (ids `b0` … `b9`), enough to reach the
auto-commit batch size of 10 inside one `batch_add`. -/
def docsTen : List Doc :=
  [⟨"b0".data, "machine".data, [], []⟩, ⟨"b1".data, "machine".data, [], []⟩,
   ⟨"b2".data, "machine".data, [], []⟩, ⟨"b3".data, "machine".data, [], []⟩,
   ⟨"b4".data, "machine".data, [], []⟩, ⟨"b5".data, "machine".data, [], []⟩,
   ⟨"b6".data, "machine".data, [], []⟩, ⟨"b7".data, "machine".data, [], []⟩,
   ⟨"b8".data, "machine".data, [], []⟩, ⟨"b9".data, "machine".data, [], []⟩]

/-- An empty barrel directory. -/
def diskEmpty : Char → List (Nat × List (Str × PostingEntry)) := fun _ => []

/-- A posting entry with one title occurrence at position 0. -/
def entryTitle1 : PostingEntry := ⟨1, [0], 1, 0, 0, 0⟩

/-- Postings input with a single term `t` matching a single document `A`. -/
def postingsOneDoc : Str → List (Str × PostingEntry) := fun w =>
  if w = "t".data then [("A".data, entryTitle1)] else []

/-- Postings input whose term `t` matches `A` then `B` (insertion order). -/
def postingsAB : Str → List (Str × PostingEntry) := fun w =>
  if w = "t".data then [("A".data, entryTitle1), ("B".data, entryTitle1)] else []

/-- The same doc/posting pairs as `postingsAB`, iterated in the order `B`
then `A`. -/
def postingsBA : Str → List (Str × PostingEntry) := fun w =>
  if w = "t".data then [("B".data, entryTitle1), ("A".data, entryTitle1)] else []

/-- The example trie: "machine" with popularity 10, "machinery" with 2. -/
def trieEx : TrieNode :=
  trieInsert (trieInsert emptyNode "machine".data 10) "machinery".data 2

/-- The keyword score of document `A` for the query `t` over `postingsOneDoc`
with a corpus of 4 documents, written out as the scoring pipeline produces
it. -/
noncomputable def vC7 : ℝ :=
  (0 + score_doc entryTitle1 (idfOf 4 [("A".data, entryTitle1)]))
    * (2 : ℝ) ^ ((((0 + 1 : Nat) : ℝ)) / ((1 : Nat) : ℝ) * 2)

/-! ## Helper predicates used in theorem statements -/

/-- The effect of `remove` on one inverted-index entry: the doc id is
discarded, and an entry that becomes empty is deleted (`none`). -/
def dropResult (docId : Str) : Option (List Str) → Option (List Str)
  | none => none
  | some s =>
      let s' := s.filter (fun x => x ≠ docId)
      if s' = [] then none else some s'

/-- The inverted index has an entry for `wid` containing `d`. -/
def invContains (inv : List (Nat × List Str)) (wid : Nat) (d : Str) : Prop :=
  ∃ s, alookup inv wid = some s ∧ d ∈ s

/-- All posting entries of a forward-index data map satisfy the posting
invariant, with every recorded position below the bound `p`. -/
def dataBound (data : List (Nat × PostingEntry)) (p : Nat) : Prop :=
  ∀ wid e, alookup data wid = some e → entryInv e ∧ ∀ q ∈ e.positions, q < p

/-- What actually holds of each event of a commit trace: barrel writes go
directly to the barrel's final path; every other write is a `.tmp` write later
renamed onto its final path. -/
def commitOpOk (disk : Char → List (Nat × List (Str × PostingEntry)))
    (st : IndexerState) (op : FsOp) : Prop :=
  (∃ c b, op = FsOp.write (barrelPath c) (.barrel b) ∧ c ∈ st.barrelBuffer.map Prod.fst) ∨
  (∃ p d, op = FsOp.write (p ++ ".tmp".data) d ∧
    FsOp.rename (p ++ ".tmp".data) p ∈ commit_trace disk st) ∨
  (∃ p, op = FsOp.rename (p ++ ".tmp".data) p)

/-! # Theorems -/

/-! ## C3: duplicate `add` is a failing no-op -/

/-- C3: for every document whose (normalized) id is already present in the
Forward Index, `add` returns failure and leaves the whole indexer state —
in particular the Lexicon, Forward Index and Inverted Index — exactly
unchanged. -/
theorem c3_duplicate_add_unchanged (stem : Str → Str) (st : IndexerState)
    (doc d : Doc) (hn : normalize doc = some d)
    (hdup : (alookup st.forwardIndex d.id).isSome = true) :
    add stem st doc = (st, false) := by
  unfold add
  rw [hn]
  simp [hdup]

/-- Witness: re-adding `docMachine` to the state that already contains it
fails and changes nothing. -/
theorem c3_witness :
    normalize docMachine = some docMachine ∧
    (alookup stAfterAdd.forwardIndex docMachine.id).isSome = true ∧
    add idStem stAfterAdd docMachine = (stAfterAdd, false) :=
  ⟨by decide, by decide,
    c3_duplicate_add_unchanged idStem stAfterAdd docMachine docMachine
      (by decide) (by decide)⟩

/-! ## C2: `batch_add` -/

theorem add_commitCount_le (stem : Str → Str) (st : IndexerState) (doc : Doc) :
    st.commitCount ≤ (add stem st doc).1.commitCount := by
  unfold add
  cases hn : normalize doc with
  | none => simp
  | some d =>
      dsimp only
      by_cases hdup : (alookup st.forwardIndex d.id).isSome
      · simp [hdup]
      · simp only [hdup, if_false, Bool.false_eq_true]
        by_cases ht : tokenize stem d = []
        · simp [ht]
        · simp only [ht, if_false]
          split
          · simp [commit]
          · simp

theorem batch_add_go_spec (stem : Str → Str) :
    ∀ (docs : List Doc) (st : IndexerState) (s f : Nat),
      (batch_add_go stem st docs s f).2.1 + (batch_add_go stem st docs s f).2.2
          = docs.length + s + f ∧
      st.commitCount ≤ (batch_add_go stem st docs s f).1.commitCount := by
  intro docs
  induction docs with
  | nil => intro st s f; simp [batch_add_go]
  | cons d ds ih =>
      intro st s f
      have hmono := add_commitCount_le stem st d
      by_cases hok : (add stem st d).2 = true
      · obtain ⟨h1, h2⟩ := ih (add stem st d).1 (s + 1) f
        simp only [batch_add_go, hok, if_true, List.length_cons]
        exact ⟨by omega, le_trans hmono h2⟩
      · obtain ⟨h1, h2⟩ := ih (add stem st d).1 s (f + 1)
        simp only [Bool.not_eq_true] at hok
        simp only [batch_add_go, hok, Bool.false_eq_true, if_false, List.length_cons]
        exact ⟨by omega, le_trans hmono h2⟩

/-- C2, amended: `batch_add` applies `add` to every document (the success and
failure counts always sum to the number of documents, so a failure never
aborts the batch), returns `(N - M, M)` with `M` the failure count, clears
the pending queue, and always performs a final commit — but intermediate
auto-commits also run whenever the pending queue reaches the batch size
during the batch, so the total number of commits is at least one, not
exactly one. -/
theorem c2_amended_batch_add (stem : Str → Str) (st : IndexerState)
    (docs : List Doc) :
    (batch_add stem st docs).2.1 + (batch_add stem st docs).2.2 = docs.length ∧
    (batch_add stem st docs).1.pendingCommits = [] ∧
    st.commitCount < (batch_add stem st docs).1.commitCount := by
  have h := batch_add_go_spec stem docs st 0 0
  unfold batch_add
  refine ⟨by simpa using h.1, rfl, ?_⟩
  simp only [commit]
  omega

/-- C2 counterexample: a batch of 10 valid documents reaches the auto-commit
threshold inside `add`, so the batch triggers two commits (one automatic at
the 10th document, one final), not exactly one; the return value `(10, 0)`
itself is as claimed. -/
theorem c2_counterexample :
    (batch_add idStem initState docsTen).2 = (10, 0) ∧
    initState.commitCount = 0 ∧
    (batch_add idStem initState docsTen).1.commitCount = 2 ∧ (2 : Nat) ≠ 1 :=
  ⟨by decide, by decide, by decide, by decide⟩

/-! ## C5: `remove` semantics -/

theorem alookup_dropDocOne (docId : Str) (inv : List (Nat × List Str))
    (wid wid' : Nat) :
    alookup (dropDocOne docId inv wid) wid' =
      if wid' = wid then dropResult docId (alookup inv wid)
      else alookup inv wid' := by
  unfold dropDocOne dropResult
  cases h : alookup inv wid with
  | none =>
      by_cases e : wid' = wid
      · subst e; simp [h]
      · simp [e]
  | some s =>
      dsimp only
      by_cases hs : s.filter (fun x => x ≠ docId) = []
      · simp only [hs, if_true]
        rw [alookup_adelete]
      · simp only [hs, if_false]
        rw [alookup_aupsert]
        by_cases e : wid' = wid
        · subst e; simp [h]
        · have e2 : ¬ wid = wid' := fun hh => e hh.symm
          simp [e, e2]

theorem dropResult_idem (docId : Str) (o : Option (List Str)) :
    dropResult docId (dropResult docId o) = dropResult docId o := by
  cases o with
  | none => rfl
  | some s =>
      unfold dropResult
      dsimp only
      by_cases hs : s.filter (fun x => x ≠ docId) = []
      · rw [if_pos hs]
      · rw [if_neg hs]
        dsimp only
        have hsame : (s.filter (fun x => x ≠ docId)).filter (fun x => x ≠ docId)
            = s.filter (fun x => x ≠ docId) :=
          List.filter_eq_self.mpr (fun a ha => (List.mem_filter.mp ha).2)
        rw [hsame, if_neg hs]

theorem alookup_dropDocFromInv (docId : Str) :
    ∀ (wids : List Nat) (inv : List (Nat × List Str)) (wid : Nat),
      alookup (dropDocFromInv inv wids docId) wid =
        if wid ∈ wids then dropResult docId (alookup inv wid)
        else alookup inv wid := by
  intro wids
  induction wids with
  | nil => intro inv wid; simp [dropDocFromInv]
  | cons w ws ih =>
      intro inv wid
      have step : dropDocFromInv inv (w :: ws) docId
          = dropDocFromInv (dropDocOne docId inv w) ws docId := rfl
      rw [step, ih, alookup_dropDocOne]
      by_cases hww : wid = w
      · subst hww
        by_cases hmem : wid ∈ ws
        · simp [hmem, dropResult_idem]
        · simp [hmem]
      · by_cases hmem : wid ∈ ws
        · simp [hmem, hww]
        · simp [hmem, hww, List.mem_cons]

/-- C5: `remove` on an absent id is a failing no-op; on a present id it
returns success, keeps the Lexicon, the barrel buffer and the commit counter
untouched (no barrel shard is modified and no file is written), deletes the
doc's forward-index entry and metadata, and for exactly the term ids
referenced by the doc's forward entry discards the doc id from the
inverted-index entry, deleting the entry entirely when it becomes empty. -/
theorem c5_remove_semantics (st : IndexerState) (docId : Str) :
    (alookup st.forwardIndex docId = none → remove st docId = (st, false)) ∧
    (∀ terms, alookup st.forwardIndex docId = some terms →
      (remove st docId).2 = true ∧
      (remove st docId).1.lexicon = st.lexicon ∧
      (remove st docId).1.barrelBuffer = st.barrelBuffer ∧
      (remove st docId).1.commitCount = st.commitCount ∧
      (∀ d', alookup (remove st docId).1.forwardIndex d' =
        if d' = docId then none else alookup st.forwardIndex d') ∧
      (∀ d', alookup (remove st docId).1.docMeta d' =
        if d' = docId then none else alookup st.docMeta d') ∧
      (∀ wid, alookup (remove st docId).1.invertedIndex wid =
        if wid ∈ akeys terms then dropResult docId (alookup st.invertedIndex wid)
        else alookup st.invertedIndex wid)) := by
  constructor
  · intro h
    unfold remove
    rw [h]
  · intro terms h
    unfold remove
    rw [h]
    refine ⟨rfl, rfl, rfl, rfl, ?_, ?_, ?_⟩
    · intro d'; exact alookup_adelete st.forwardIndex docId d'
    · intro d'; exact alookup_adelete st.docMeta docId d'
    · intro wid; exact alookup_dropDocFromInv docId (akeys terms) st.invertedIndex wid

/-- Witness: removing the present doc `d1` succeeds (and the inverted-index
entry for its only term, which becomes empty, is deleted); removing an absent
id from a fresh indexer fails and changes nothing. -/
theorem c5_witness :
    (alookup stAfterAdd.forwardIndex "d1".data = some [(1, entryTitle1)] ∧
      (remove stAfterAdd "d1".data).2 = true ∧
      alookup (remove stAfterAdd "d1".data).1.invertedIndex 1 =
        dropResult "d1".data (alookup stAfterAdd.invertedIndex 1)) ∧
    (alookup initState.forwardIndex "zz".data = none ∧
      remove initState "zz".data = (initState, false)) := by
  have hp := (c5_remove_semantics stAfterAdd "d1".data).2 [(1, entryTitle1)] (by decide)
  refine ⟨⟨by decide, hp.1, ?_⟩, by decide,
    (c5_remove_semantics initState "zz".data).1 (by decide)⟩
  have h7 := hp.2.2.2.2.2.2 1
  rw [h7, if_pos (by decide)]

/-! ## C1: forward/inverted mirror invariant -/

theorem alookup_append_left {α β : Type} [DecidableEq α]
    {l : List (α × β)} (l2 : List (α × β)) {k : α} {v : β}
    (h : alookup l k = some v) : alookup (l ++ l2) k = some v := by
  induction l with
  | nil => simp [alookup] at h
  | cons hd t ih =>
      obtain ⟨a, b⟩ := hd
      by_cases hak : a = k
      · simpa [alookup, hak] using by simpa [alookup, hak] using h
      · simp only [alookup, if_neg hak] at h
        simpa [alookup, hak] using ih h

theorem alookup_append_right {α β : Type} [DecidableEq α]
    {l : List (α × β)} (l2 : List (α × β)) {k : α}
    (h : alookup l k = none) : alookup (l ++ l2) k = alookup l2 k := by
  induction l with
  | nil => simp
  | cons hd t ih =>
      obtain ⟨a, b⟩ := hd
      by_cases hak : a = k
      · simp [alookup, hak] at h
      · simp only [alookup, if_neg hak] at h
        simpa [alookup, hak] using ih h

theorem addInv_mono {inv : List (Nat × List Str)} {wid : Nat} {d : Str}
    (wid' : Nat) (docId : Str) (h : invContains inv wid d) :
    invContains (addInv inv wid' docId) wid d := by
  obtain ⟨s, hs, hds⟩ := h
  unfold addInv
  cases hl : alookup inv wid' with
  | none => exact ⟨s, alookup_append_left _ hs, hds⟩
  | some s0 =>
      by_cases e : wid' = wid
      · subst e
        rw [hl] at hs
        injection hs with h2
        subst h2
        refine ⟨if docId ∈ s0 then s0 else s0 ++ [docId], ?_, ?_⟩
        · rw [alookup_aupsert]; simp
        · by_cases hd0 : docId ∈ s0
          · simpa [hd0] using hds
          · simp only [hd0, if_false]
            exact List.mem_append.mpr (Or.inl hds)
      · refine ⟨s, ?_, hds⟩
        rw [alookup_aupsert]
        simp [e, hs]

theorem addInv_self (inv : List (Nat × List Str)) (wid : Nat) (docId : Str) :
    invContains (addInv inv wid docId) wid docId := by
  unfold addInv
  cases hl : alookup inv wid with
  | none =>
      refine ⟨[docId], ?_, List.mem_singleton_self docId⟩
      rw [alookup_append_right _ hl]
      simp [alookup]
  | some s =>
      refine ⟨if docId ∈ s then s else s ++ [docId], ?_, ?_⟩
      · rw [alookup_aupsert]; simp
      · by_cases hd : docId ∈ s
        · simp [hd]
        · simp [hd]

theorem foldl_addInv_mono (lex : List (Str × Nat)) (docId : Str) :
    ∀ (ws : List Str) (inv : List (Nat × List Str)) (wid : Nat) (d : Str),
      invContains inv wid d →
      invContains (ws.foldl (fun acc u => addInv acc (lexId lex u) docId) inv) wid d := by
  intro ws
  induction ws with
  | nil => intro inv wid d h; exact h
  | cons u us ih =>
      intro inv wid d h
      exact ih _ _ _ (addInv_mono _ _ h)

theorem foldl_addInv_contains (lex : List (Str × Nat)) (docId : Str) :
    ∀ (ws : List Str) (inv : List (Nat × List Str)) (w : Str), w ∈ ws →
      invContains (ws.foldl (fun acc u => addInv acc (lexId lex u) docId) inv)
        (lexId lex w) docId := by
  intro ws
  induction ws with
  | nil => intro inv w h; simp at h
  | cons u us ih =>
      intro inv w h
      rcases List.mem_cons.mp h with h | h
      · subst h
        exact foldl_addInv_mono lex docId us _ _ _ (addInv_self inv (lexId lex w) docId)
      · exact ih _ w h

theorem mem_dedupFirst : ∀ (ws seen : List Str) (w : Str),
    w ∈ ws → w ∉ seen → w ∈ dedupFirst seen ws := by
  intro ws
  induction ws with
  | nil => intro seen w h; simp at h
  | cons u us ih =>
      intro seen w h hns
      rcases List.mem_cons.mp h with h | h
      · subst h
        simp only [dedupFirst, if_neg hns]
        exact List.mem_cons_self _ _
      · unfold dedupFirst
        by_cases hu : u ∈ seen
        · rw [if_pos hu]
          exact ih seen w h hns
        · rw [if_neg hu]
          by_cases hwu : w = u
          · subst hwu; exact List.mem_cons_self _ _
          · exact List.mem_cons_of_mem _ (ih (u :: seen) w h (by simp [hwu, hns]))

theorem update_inverted_index_contains (lex : List (Str × Nat)) (docId : Str)
    (tokens : List Token) (inv : List (Nat × List Str)) (w : Str)
    (hw : w ∈ tokens.map Token.word) :
    invContains (update_inverted_index lex docId tokens inv) (lexId lex w) docId :=
  foldl_addInv_contains lex docId _ inv w (mem_dedupFirst _ [] w hw (by simp))

theorem update_inverted_index_mono (lex : List (Str × Nat)) (docId : Str)
    (tokens : List Token) (inv : List (Nat × List Str)) (wid : Nat) (d : Str)
    (h : invContains inv wid d) :
    invContains (update_inverted_index lex docId tokens inv) wid d :=
  foldl_addInv_mono lex docId _ inv wid d h

theorem mem_akeys_buildFwdData (lex : List (Str × Nat)) :
    ∀ (tokens : List Token) (data : List (Nat × PostingEntry)) (wid : Nat),
      wid ∈ akeys (buildFwdData lex tokens data) →
      wid ∈ akeys data ∨ ∃ t ∈ tokens, lexId lex t.word = wid := by
  intro tokens
  induction tokens with
  | nil => intro data wid h; exact Or.inl h
  | cons t ts ih =>
      intro data wid h
      rcases ih _ wid h with h | ⟨t', ht', hw⟩
      · rw [akeys_aupsert] at h
        by_cases hm : lexId lex t.word ∈ akeys data
        · rw [if_pos hm] at h; exact Or.inl h
        · rw [if_neg hm] at h
          rcases List.mem_append.mp h with h | h
          · exact Or.inl h
          · exact Or.inr ⟨t, List.mem_cons_self _ _, (List.mem_singleton.mp h).symm⟩
      · exact Or.inr ⟨t', List.mem_cons_of_mem _ ht', hw⟩

theorem mirror_step (st : IndexerState) (h : mirrorMember st)
    (lex : List (Str × Nat)) (tokens : List Token) (did : Str) :
    ∀ (d' : Str) (terms : List (Nat × PostingEntry)),
      alookup (aupsert st.forwardIndex did (buildFwdData lex tokens [])) d' = some terms →
      ∀ wid, wid ∈ akeys terms →
        invContains (update_inverted_index lex did tokens st.invertedIndex) wid d' := by
  intro d' terms hterms wid hwid
  rw [alookup_aupsert] at hterms
  by_cases e : did = d'
  · rw [if_pos e] at hterms
    cases hterms
    rcases mem_akeys_buildFwdData lex tokens [] wid hwid with h0 | ⟨t, ht, hwd⟩
    · simp [akeys] at h0
    · subst e
      rw [← hwd]
      exact update_inverted_index_contains lex did tokens st.invertedIndex t.word
        (List.mem_map_of_mem _ ht)
  · rw [if_neg e] at hterms
    exact update_inverted_index_mono lex did tokens st.invertedIndex wid d'
      (h d' terms hterms wid hwid)

theorem add_preserves_mirror (stem : Str → Str) (st : IndexerState) (doc : Doc)
    (h : mirrorMember st) : mirrorMember (add stem st doc).1 := by
  unfold add
  cases hn : normalize doc with
  | none => exact h
  | some d =>
      dsimp only
      by_cases hdup : (alookup st.forwardIndex d.id).isSome
      · simpa [hdup] using h
      · simp only [hdup, Bool.false_eq_true, if_false]
        by_cases ht : tokenize stem d = []
        · simpa [ht] using h
        · simp only [ht, if_false]
          split
          · intro d' terms hterms wid hwid
            exact mirror_step st h _ (tokenize stem d) d.id d' terms hterms wid hwid
          · intro d' terms hterms wid hwid
            exact mirror_step st h _ (tokenize stem d) d.id d' terms hterms wid hwid

theorem remove_preserves_mirror (st : IndexerState) (docId : Str)
    (h : mirrorMember st) : mirrorMember (remove st docId).1 := by
  unfold remove
  cases hl : alookup st.forwardIndex docId with
  | none => exact h
  | some terms0 =>
      intro d' terms hterms wid hwid
      simp only at hterms ⊢
      rw [alookup_adelete] at hterms
      by_cases hdd : d' = docId
      · rw [if_pos hdd] at hterms; cases hterms
      · rw [if_neg hdd] at hterms
        obtain ⟨s, hs, hds⟩ := h d' terms hterms wid hwid
        rw [alookup_dropDocFromInv]
        by_cases hmem : wid ∈ akeys terms0
        · rw [if_pos hmem, hs]
          unfold dropResult
          dsimp only
          have hmem' : d' ∈ s.filter (fun x => x ≠ docId) :=
            List.mem_filter.mpr ⟨hds, by simp [hdd]⟩
          rw [if_neg (List.ne_nil_of_mem hmem')]
          exact ⟨_, rfl, hmem'⟩
        · rw [if_neg hmem]
          exact ⟨s, hs, hds⟩

theorem runOps_preserves_mirror (stem : Str → Str) :
    ∀ (ops : List Op) (st : IndexerState),
      mirrorMember st → mirrorMember (runOps stem st ops) := by
  intro ops
  induction ops with
  | nil => intro st h; exact h
  | cons o os ih =>
      intro st h
      refine ih _ ?_
      cases o with
      | add d => exact add_preserves_mirror stem st d h
      | remove i => exact remove_preserves_mirror st i h
      | commit => exact h

/-- C1, amended: after any sequence of `add`/`remove`/`commit` operations
from a fresh indexer (in particular after any commit), for every doc id and
term id present in the Forward Index the Inverted Index has an entry for that
term id that *contains the doc id*.  The inverted index maintained by the
code stores only this doc-id membership — not a posting value — so the
claimed value-equality `forward[doc][term] == inverted[term][doc]` of posting
entries does not hold (see the counterexample). -/
theorem c1_amended_mirror_membership (stem : Str → Str) (ops : List Op) :
    mirrorMember (runOps stem initState ops) := by
  refine runOps_preserves_mirror stem ops initState ?_
  intro d terms hterms
  simp [alookup] at hterms

/-- C1 counterexample: after adding a one-term document and committing, the
Forward Index maps (doc `d1`, term 1) to a full posting entry, but the
Inverted Index entry for term 1 is the doc-id set `{"d1"}` — it carries no
posting value at all, so no posting value-equal to the forward entry exists
in the Inverted Index. -/
theorem c1_counterexample :
    ¬ mirrorValueEqual stCommitted ∧
    alookup stCommitted.forwardIndex "d1".data = some [(1, entryTitle1)] ∧
    alookup stCommitted.invertedIndex 1 = some ["d1".data] := by
  refine ⟨?_, by decide, by decide⟩
  intro h
  have hx := h "d1".data [(1, entryTitle1)] 1 entryTitle1 (by decide) (by decide)
  simp [invPostingLookup] at hx

/-! ## C4: atomicity of the writes of a commit -/

/-- C4, amended: during a commit, the lexicon, forward-index, inverted-index
and metadata files are each written atomically (a `.tmp` write followed by a
rename onto the final path), but every dirty barrel shard is written
*directly* to its final path with no temporary file, so a crash mid-write can
leave a partially written barrel file. -/
theorem c4_amended_commit_writes (disk : Char → List (Nat × List (Str × PostingEntry)))
    (st : IndexerState) :
    ∀ op ∈ commit_trace disk st, commitOpOk disk st op := by
  intro op hop
  simp only [commit_trace, List.mem_append] at hop
  have hrename : ∀ (path : Str) (pl : Payload),
      (FsOp.rename (path ++ ".tmp".data) path ∈ save_json_ops path pl) :=
    fun path pl => by simp [save_json_ops]
  rcases hop with ((((hf | h1) | h2) | h3) | h4)
  · simp only [flush_barrel_buffer_ops, List.mem_flatten, List.mem_map] at hf
    obtain ⟨l, ⟨x, hx, rfl⟩, hopl⟩ := hf
    simp only [update_barrel_file_batch_ops, List.mem_singleton] at hopl
    subst hopl
    exact Or.inl ⟨x.1, _, rfl, List.mem_map_of_mem Prod.fst hx⟩
  · simp only [save_json_ops, List.mem_cons, List.not_mem_nil, or_false] at h1
    rcases h1 with rfl | rfl
    · refine Or.inr (Or.inl ⟨"lexicon.json".data, _, rfl, ?_⟩)
      simp only [commit_trace, List.mem_append]
      exact Or.inl (Or.inl (Or.inl (Or.inr (hrename _ _))))
    · exact Or.inr (Or.inr ⟨"lexicon.json".data, rfl⟩)
  · simp only [save_json_ops, List.mem_cons, List.not_mem_nil, or_false] at h2
    rcases h2 with rfl | rfl
    · refine Or.inr (Or.inl ⟨"forward_index.json".data, _, rfl, ?_⟩)
      simp only [commit_trace, List.mem_append]
      exact Or.inl (Or.inl (Or.inr (hrename _ _)))
    · exact Or.inr (Or.inr ⟨"forward_index.json".data, rfl⟩)
  · simp only [save_json_ops, List.mem_cons, List.not_mem_nil, or_false] at h3
    rcases h3 with rfl | rfl
    · refine Or.inr (Or.inl ⟨"inverted_index.json".data, _, rfl, ?_⟩)
      simp only [commit_trace, List.mem_append]
      exact Or.inl (Or.inr (hrename _ _))
    · exact Or.inr (Or.inr ⟨"inverted_index.json".data, rfl⟩)
  · simp only [save_json_ops, List.mem_cons, List.not_mem_nil, or_false] at h4
    rcases h4 with rfl | rfl
    · refine Or.inr (Or.inl ⟨"arxiv_100k.json".data, _, rfl, ?_⟩)
      simp only [commit_trace, List.mem_append]
      exact Or.inr (hrename _ _)
    · exact Or.inr (Or.inr ⟨"arxiv_100k.json".data, rfl⟩)

/-- Witness: the commit after one `add` writes the dirty barrel `m` directly
to its final path, and that event satisfies the amended description. -/
theorem c4_amended_witness :
    (FsOp.write (barrelPath 'm') (Payload.barrel [(1, [("d1".data, entryTitle1)])])
        ∈ commit_trace diskEmpty stAfterAdd) ∧
    commitOpOk diskEmpty stAfterAdd
      (FsOp.write (barrelPath 'm') (Payload.barrel [(1, [("d1".data, entryTitle1)])])) :=
  ⟨by decide, c4_amended_commit_writes diskEmpty stAfterAdd _ (by decide)⟩

/-- C4 counterexample: for the commit following a single `add`, not every file
write is atomic — the write of barrel `m` goes directly to `barrels/m.json`
with no temporary path and no rename. -/
theorem c4_counterexample : ¬ commitWritesAtomic diskEmpty stAfterAdd := by
  intro h
  have hb := h (FsOp.write (barrelPath 'm')
    (Payload.barrel [(1, [("d1".data, entryTitle1)])])) (by decide)
  exact absurd hb (by decide)

/-! ## C9: posting-entry invariant -/

theorem tokenizeWords_positions (stem : Str → Str) (f : Field) :
    ∀ (ws : List Str) (pos : Nat),
      (tokenizeWords stem f ws pos).1.map Token.pos
          = List.range' pos (tokenizeWords stem f ws pos).1.length ∧
      (tokenizeWords stem f ws pos).2 = pos + (tokenizeWords stem f ws pos).1.length := by
  intro ws
  induction ws with
  | nil => intro pos; simp [tokenizeWords]
  | cons w rest ih =>
      intro pos
      unfold tokenizeWords
      by_cases hc : (cleanWord w).length ≤ 1
      · simpa [hc] using ih pos
      · obtain ⟨ih1, ih2⟩ := ih (pos + 1)
        simp only [hc, if_false]
        constructor
        · simp only [List.map_cons, List.length_cons, ih1, List.range']
        · simp only [List.length_cons, ih2]
          omega

theorem tokenize_positions (stem : Str → Str) (d : Doc) :
    (tokenize stem d).map Token.pos = List.range' 0 (tokenize stem d).length := by
  simp only [tokenize]
  generalize h1 : tokenizeWords stem Field.title (pySplit (pyLower d.title)) 0 = r1
  generalize h2 : tokenizeWords stem Field.authors (pySplit (pyLower d.authors)) r1.2 = r2
  generalize h3 : tokenizeWords stem Field.abstract (pySplit (pyLower d.abstract)) r2.2 = r3
  have s1 := tokenizeWords_positions stem Field.title (pySplit (pyLower d.title)) 0
  rw [h1] at s1
  have s2 := tokenizeWords_positions stem Field.authors (pySplit (pyLower d.authors)) r1.2
  rw [h2] at s2
  have s3 := tokenizeWords_positions stem Field.abstract (pySplit (pyLower d.abstract)) r2.2
  rw [h3] at s3
  simp only [List.map_append, List.length_append]
  rw [s1.1, s2.1, s3.1, s2.2, s1.2, Nat.zero_add]
  have hA := List.range'_append_1 0 r1.1.length r2.1.length
  have hB := List.range'_append_1 0 (r1.1.length + r2.1.length) r3.1.length
  rw [Nat.zero_add] at hA hB
  rw [hA, Nat.add_comm r2.1.length r1.1.length, hB]
  congr 1
  omega

theorem bumpEntry_inv (e : PostingEntry) (p : Nat) (f : Field)
    (he : entryInv e) (hb : ∀ q ∈ e.positions, q < p) :
    entryInv (bumpEntry e p f) ∧ ∀ q ∈ (bumpEntry e p f).positions, q < p + 1 := by
  obtain ⟨h1, h2, h3⟩ := he
  have hchain : (e.positions ++ [p]).Chain' (· < ·) := by
    rw [List.chain'_append]
    refine ⟨h3, List.chain'_singleton p, ?_⟩
    intro x hx y hy
    simp only [List.head?_cons, Option.mem_def, Option.some.injEq] at hy
    subst hy
    obtain ⟨hne, hxl⟩ := List.mem_getLast?_eq_getLast hx
    exact hb x (hxl ▸ List.getLast_mem hne)
  have hmem : ∀ q ∈ e.positions ++ [p], q < p + 1 := by
    intro q hq
    rcases List.mem_append.mp hq with hq | hq
    · exact Nat.lt_succ_of_lt (hb q hq)
    · simp only [List.mem_singleton] at hq
      omega
  cases f <;>
    exact ⟨⟨by simp [bumpEntry, h1], by simp [bumpEntry]; omega, by simpa [bumpEntry] using hchain⟩,
      by simpa [bumpEntry] using hmem⟩

theorem buildFwdData_dataBound (lex : List (Str × Nat)) :
    ∀ (tokens : List Token) (data : List (Nat × PostingEntry)) (p : Nat),
      tokens.map Token.pos = List.range' p tokens.length →
      dataBound data p →
      dataBound (buildFwdData lex tokens data) (p + tokens.length) := by
  intro tokens
  induction tokens with
  | nil => intro data p _ hd; simpa using hd
  | cons t ts ih =>
      intro data p hmap hd
      simp only [List.map_cons, List.length_cons, List.range'] at hmap
      obtain ⟨hpos, hmap'⟩ : t.pos = p ∧ ts.map Token.pos = List.range' (p + 1) ts.length := by
        have h1 := congrArg List.head? hmap
        have h2 := congrArg List.tail hmap
        simp only [List.head?_cons, List.tail_cons, Option.some.injEq] at h1 h2
        exact ⟨h1, h2⟩
      have hd1 : dataBound (aupsert data (lexId lex t.word)
          (bumpEntry (agetD data (lexId lex t.word) emptyEntry) t.pos t.field)) (p + 1) := by
        intro wid e he
        rw [alookup_aupsert] at he
        by_cases hw : lexId lex t.word = wid
        · rw [if_pos hw] at he
          injection he with he
          subst he
          subst hpos
          unfold agetD
          cases hl : alookup data (lexId lex t.word) with
          | none =>
              simpa [hl] using bumpEntry_inv emptyEntry t.pos t.field
                ⟨rfl, rfl, List.chain'_nil⟩ (by intro q hq; simp [emptyEntry] at hq)
          | some c =>
              have hc := hd _ _ hl
              simpa [hl] using bumpEntry_inv c t.pos t.field hc.1 hc.2
        · rw [if_neg hw] at he
          have hc := hd _ _ he
          exact ⟨hc.1, fun q hq => Nat.lt_succ_of_lt (hc.2 q hq)⟩
      have hres := ih _ (p + 1) hmap' hd1
      have harith : p + 1 + ts.length = p + (ts.length + 1) := by omega
      rw [harith] at hres
      exact hres

/-- C9: after every successful `add`, every posting entry of the new
document's Forward Index entry satisfies
`total_freq == len(positions) == sum(per_field_count)` with a strictly
increasing positions sequence. -/
theorem c9_posting_entry_invariant (stem : Str → Str) (st : IndexerState)
    (doc d : Doc) (hn : normalize doc = some d)
    (hok : (add stem st doc).2 = true) :
    ∃ terms, alookup (add stem st doc).1.forwardIndex d.id = some terms ∧
      ∀ wid e, alookup terms wid = some e → entryInv e := by
  unfold add at hok ⊢
  rw [hn] at hok ⊢
  dsimp only at hok ⊢
  by_cases hdup : (alookup st.forwardIndex d.id).isSome
  · simp [hdup] at hok
  · simp only [hdup, Bool.false_eq_true, if_false] at hok ⊢
    by_cases ht : tokenize stem d = []
    · simp [ht] at hok
    · simp only [ht, if_false] at hok ⊢
      have hbound := buildFwdData_dataBound
        (update_lexicon (tokenize stem d) st.lexicon st.nextTermId).1
        (tokenize stem d) [] 0 (tokenize_positions stem d)
        (by intro wid e h; simp [alookup] at h)
      split
      all_goals
        refine ⟨buildFwdData (update_lexicon (tokenize stem d) st.lexicon st.nextTermId).1
          (tokenize stem d) [], ?_, fun wid e he => (hbound wid e he).1⟩
      all_goals
        show alookup (aupsert st.forwardIndex d.id
          (buildFwdData (update_lexicon (tokenize stem d) st.lexicon st.nextTermId).1
            (tokenize stem d) [])) d.id = _
      all_goals
        rw [alookup_aupsert, if_pos rfl]

/-- Witness: the posting entry created by adding `docMachine` satisfies the
invariant. -/
theorem c9_witness :
    normalize docMachine = some docMachine ∧
    (add idStem initState docMachine).2 = true ∧
    (∃ terms,
      alookup (add idStem initState docMachine).1.forwardIndex docMachine.id = some terms ∧
      ∀ wid e, alookup terms wid = some e → entryInv e) :=
  ⟨by decide, by decide,
    c9_posting_entry_invariant idStem initState docMachine docMachine
      (by decide) (by decide)⟩

/-! ## C6: keyword scoring formula -/

theorem alookup_eq_none_of_not_mem {α β : Type} [DecidableEq α]
    {l : List (α × β)} {k : α} (h : k ∉ l.map Prod.fst) : alookup l k = none := by
  cases hl : alookup l k with
  | none => rfl
  | some v => exact absurd (mem_akeys_of_alookup hl) h

theorem score_doc_eq_spec (e : PostingEntry) (idf : ℝ) :
    score_doc e idf = specPerTermScore e idf := by
  unfold score_doc specPerTermScore
  ring

theorem idfOf_eq_spec (N : Nat) (p : List (Str × PostingEntry)) :
    idfOf N p = specIdf N p.length := rfl

theorem scoreFoldDocs_agetD (idf : ℝ) :
    ∀ (p : List (Str × PostingEntry)) (sc : List (Str × ℝ)) (cnt : List (Str × Nat))
      (d : Str), (p.map Prod.fst).Nodup →
      agetD (scoreFoldDocs idf p sc cnt).1 d 0
          = agetD sc d 0 + (match alookup p d with
            | some e => score_doc e idf
            | none => 0) ∧
      agetD (scoreFoldDocs idf p sc cnt).2 d 0
          = agetD cnt d 0 + (if (alookup p d).isSome then 1 else 0) := by
  intro p
  induction p with
  | nil => intro sc cnt d _; simp [scoreFoldDocs, alookup]
  | cons de rest ih =>
      intro sc cnt d hnd
      obtain ⟨d0, e0⟩ := de
      simp only [List.map_cons, List.nodup_cons] at hnd
      obtain ⟨hd0, ndrest⟩ := hnd
      have ihh := ih (aupsert sc d0 (agetD sc d0 0 + score_doc e0 idf))
        (aupsert cnt d0 (agetD cnt d0 0 + 1)) d ndrest
      by_cases e : d0 = d
      · subst e
        have hrest : alookup rest d0 = none := alookup_eq_none_of_not_mem hd0
        simp only [scoreFoldDocs]
        rw [ihh.1, ihh.2]
        unfold agetD
        rw [alookup_aupsert, alookup_aupsert, if_pos rfl, if_pos rfl, hrest]
        simp [alookup]
      · simp only [scoreFoldDocs]
        rw [ihh.1, ihh.2]
        unfold agetD
        rw [alookup_aupsert, alookup_aupsert, if_neg e, if_neg e]
        simp [alookup, e]

theorem scoreFoldTerms_agetD (N : Nat) :
    ∀ (pmap : List (Str × List (Str × PostingEntry))) (sc : List (Str × ℝ))
      (cnt : List (Str × Nat)) (d : Str),
      (∀ wp ∈ pmap, (wp.2.map Prod.fst).Nodup) →
      agetD (scoreFoldTerms N pmap sc cnt).1 d 0 = agetD sc d 0 + specTermSum N pmap d ∧
      agetD (scoreFoldTerms N pmap sc cnt).2 d 0
          = agetD cnt d 0 + matchedCount pmap d := by
  intro pmap
  induction pmap with
  | nil => intro sc cnt d _; simp [scoreFoldTerms, specTermSum, matchedCount]
  | cons wp rest ih =>
      intro sc cnt d hnd
      obtain ⟨w, p⟩ := wp
      have hp : (p.map Prod.fst).Nodup := hnd (w, p) (List.mem_cons_self _ _)
      have hrest : ∀ x ∈ rest, (x.2.map Prod.fst).Nodup :=
        fun x hx => hnd x (List.mem_cons_of_mem _ hx)
      simp only [scoreFoldTerms]
      have hdocs := scoreFoldDocs_agetD (idfOf N p) p sc cnt d hp
      have ihh := ih (scoreFoldDocs (idfOf N p) p sc cnt).1
        (scoreFoldDocs (idfOf N p) p sc cnt).2 d hrest
      constructor
      · rw [ihh.1, hdocs.1]
        have hsum : specTermSum N ((w, p) :: rest) d
            = (match alookup p d with
               | some e => specPerTermScore e (specIdf N p.length)
               | none => 0) + specTermSum N rest d := by
          simp [specTermSum]
        rw [hsum]
        cases alookup p d with
        | none => dsimp only; ring
        | some e =>
            dsimp only
            rw [score_doc_eq_spec, idfOf_eq_spec]
            ring
      · rw [ihh.2, hdocs.2]
        have hcnt : matchedCount ((w, p) :: rest) d
            = (if (alookup p d).isSome then 1 else 0) + matchedCount rest d := by
          unfold matchedCount
          by_cases hm : (alookup p d).isSome
          · simp [List.filter_cons, hm]; omega
          · simp [List.filter_cons, hm]
        rw [hcnt]
        omega

theorem alookup_map_snd {α β γ : Type} [DecidableEq α] (f : α → β → γ) :
    ∀ (l : List (α × β)) (k : α),
      alookup (l.map (fun p => (p.1, f p.1 p.2))) k = (alookup l k).map (f k) := by
  intro l
  induction l with
  | nil => intro k; simp [alookup]
  | cons hd t ih =>
      intro k
      obtain ⟨a, b⟩ := hd
      by_cases hak : a = k
      · subst hak; simp [alookup]
      · simp [alookup, hak, ih]

theorem agetD_applyBonus (qlen : Nat) (sc : List (Str × ℝ)) (cnt : List (Str × Nat))
    (d : Str) :
    agetD (applyBonus qlen sc cnt) d 0
      = match alookup sc d with
        | some s => s * (2 : ℝ) ^ (((agetD cnt d 0 : Nat) : ℝ) / (qlen : ℝ) * 2)
        | none => 0 := by
  unfold applyBonus agetD
  rw [alookup_map_snd
    (fun k v => v * (2 : ℝ) ^ ((((alookup cnt k).getD 0 : Nat) : ℝ) / (qlen : ℝ) * 2)) sc d]
  cases alookup sc d <;> simp

/-- C6: for every query (as its preprocessed word list), postings source and
document, the aggregate score computed by the `multi_word_search` folds
equals the specification formula: the sum over matched query terms of
`(Σ_field field_count × field_weight) × (1 + ln(1 + total_freq)) ×
ln(N / (1 + df))`, multiplied by `2 ^ (2 × matched_term_count /
query_term_count)` (weights: title 3.0, authors 2.0, categories 1.5,
abstract 1.0; `df` the term's postings count, `N` the corpus size,
`query_term_count` the number of preprocessed query words).  The postings
maps, coming from JSON dicts, have duplicate-free keys. -/
theorem c6_scoring_formula (N : Nat) (words : List Str)
    (postings : Str → List (Str × PostingEntry)) (d : Str)
    (hnd : ∀ wp ∈ pmapOf words postings, (wp.2.map Prod.fst).Nodup) :
    agetD (finalScores N words postings) d 0 = specAggregate N words postings d := by
  unfold finalScores specAggregate
  by_cases hw : words = []
  · subst hw
    have hpm : pmapOf [] postings = [] := rfl
    simp [hpm, specTermSum, agetD, alookup]
  · simp only [hw, if_false]
    by_cases hp : pmapOf words postings = []
    · simp only [hp]
      simp [specTermSum, agetD, alookup]
    · simp only [hp, if_false]
      rw [agetD_applyBonus]
      have hsc := (scoreFoldTerms_agetD N (pmapOf words postings) [] [] d hnd).1
      have hcnt := (scoreFoldTerms_agetD N (pmapOf words postings) [] [] d hnd).2
      have h0 : agetD ([] : List (Str × ℝ)) d 0 = 0 := rfl
      have h0' : agetD ([] : List (Str × Nat)) d 0 = 0 := rfl
      rw [h0, zero_add] at hsc
      rw [h0', Nat.zero_add] at hcnt
      cases hsl : alookup (scoreFoldTerms N (pmapOf words postings) [] []).1 d with
      | none =>
          have : agetD (scoreFoldTerms N (pmapOf words postings) [] []).1 d 0 = 0 := by
            unfold agetD; rw [hsl]; rfl
          rw [this] at hsc
          rw [← hsc, zero_mul]
      | some s =>
          have : agetD (scoreFoldTerms N (pmapOf words postings) [] []).1 d 0 = s := by
            unfold agetD; rw [hsl]; rfl
          rw [this] at hsc
          rw [hsc, hcnt]
          push_cast
          ring_nf

/-- Witness: the formula instantiated on a two-document postings input. -/
theorem c6_witness :
    (∀ wp ∈ pmapOf ["t".data] postingsAB, (wp.2.map Prod.fst).Nodup) ∧
    agetD (finalScores 4 ["t".data] postingsAB) "A".data 0
      = specAggregate 4 ["t".data] postingsAB "A".data :=
  ⟨by decide, c6_scoring_formula 4 ["t".data] postingsAB "A".data (by decide)⟩

/-! ## C10: ranking order and tie-breaking -/

theorem insDesc_perm {α β : Type} [LinearOrder β] (key : α → β) (x : α) :
    ∀ l : List α, List.Perm (insDesc key x l) (x :: l) := by
  intro l
  induction l with
  | nil => simp [insDesc]
  | cons y ys ih =>
      unfold insDesc
      by_cases h : key y ≤ key x
      · rw [if_pos h]
      · rw [if_neg h]
        exact (ih.cons y).trans (List.Perm.swap x y ys)

theorem sortDesc_perm {α β : Type} [LinearOrder β] (key : α → β) :
    ∀ l : List α, List.Perm (sortDesc key l) l := by
  intro l
  induction l with
  | nil => simp [sortDesc]
  | cons x xs ih =>
      exact (insDesc_perm key x (sortDesc key xs)).trans (ih.cons x)

theorem insDesc_sorted {α β : Type} [LinearOrder β] (key : α → β) (x : α) :
    ∀ l : List α, l.Sorted (fun a b => key b ≤ key a) →
      (insDesc key x l).Sorted (fun a b => key b ≤ key a) := by
  intro l
  induction l with
  | nil => intro _; simp [insDesc]
  | cons y ys ih =>
      intro h
      rw [List.sorted_cons] at h
      obtain ⟨hy, hys⟩ := h
      unfold insDesc
      by_cases hle : key y ≤ key x
      · rw [if_pos hle, List.sorted_cons]
        refine ⟨?_, List.sorted_cons.mpr ⟨hy, hys⟩⟩
        intro b hb
        rcases List.mem_cons.mp hb with rfl | hb
        · exact hle
        · exact le_trans (hy b hb) hle
      · rw [if_neg hle, List.sorted_cons]
        refine ⟨?_, ih hys⟩
        intro b hb
        rcases List.mem_cons.mp ((insDesc_perm key x ys).mem_iff.mp hb) with rfl | hb2
        · exact le_of_not_le hle
        · exact hy b hb2

theorem sortDesc_sorted {α β : Type} [LinearOrder β] (key : α → β) :
    ∀ l : List α, (sortDesc key l).Sorted (fun a b => key b ≤ key a) := by
  intro l
  induction l with
  | nil => simp [sortDesc]
  | cons x xs ih => exact insDesc_sorted key x (sortDesc key xs) ih

/-- C10, amended: keyword search results are the top-K of the aggregate
scores in descending score order (the ranked prefix of a stable descending
sort, which permutes the score map), but the tie-break among equal scores is
the score map's insertion order — `sorted(..., reverse=True)` is stable and
keys only on the score — so reordering the postings iteration *can* reorder
equal-scored documents (see the counterexample). -/
theorem c10_amended_ranking (N : Nat) (words : List Str)
    (postings : Str → List (Str × PostingEntry)) (top_k : Nat) :
    (multi_word_search N words postings top_k).Sorted (fun a b => b.2 ≤ a.2) ∧
    List.Perm (sortDesc Prod.snd (finalScores N words postings)) (finalScores N words postings) := by
  constructor
  · exact List.Pairwise.sublist (List.take_sublist _ _)
      (sortDesc_sorted Prod.snd (finalScores N words postings))
  · exact sortDesc_perm Prod.snd (finalScores N words postings)

/-- C10 counterexample: two postings inputs for the term `t` with exactly the
same doc/score pairs (`A` and `B` tie) but opposite iteration order produce
*different* ranked lists — `[A, B]` versus `[B, A]` — so the tie-break is
insertion-order-dependent, not deterministic over inputs. -/
theorem c10_counterexample :
    List.Perm (finalScores 1 ["t".data] postingsAB) (finalScores 1 ["t".data] postingsBA) ∧
    multi_word_search 1 ["t".data] postingsAB 30
      ≠ multi_word_search 1 ["t".data] postingsBA 30 := by
  obtain ⟨x, hx, hy⟩ : ∃ x : ℝ,
      finalScores 1 ["t".data] postingsAB = [("A".data, x), ("B".data, x)] ∧
      finalScores 1 ["t".data] postingsBA = [("B".data, x), ("A".data, x)] :=
    ⟨_, rfl, rfl⟩
  have hs1 : multi_word_search 1 ["t".data] postingsAB 30
      = [("A".data, x), ("B".data, x)] := by
    unfold multi_word_search
    rw [hx]
    simp [sortDesc, insDesc]
  have hs2 : multi_word_search 1 ["t".data] postingsBA 30
      = [("B".data, x), ("A".data, x)] := by
    unfold multi_word_search
    rw [hy]
    simp [sortDesc, insDesc]
  refine ⟨?_, ?_⟩
  · rw [hx, hy]
    exact List.Perm.swap ("B".data, x) ("A".data, x) []
  · rw [hs1, hs2]
    intro h
    injection h with hh _
    have hfst : ("A".data : Str) = "B".data := congrArg Prod.fst hh
    exact absurd hfst (by decide)

/-! ## C7: hybrid search without embeddings -/

theorem akeys_nodup_aupsert {α β : Type} [DecidableEq α]
    (l : List (α × β)) (k : α) (v : β) (h : (akeys l).Nodup) :
    (akeys (aupsert l k v)).Nodup := by
  rw [akeys_aupsert]
  by_cases hm : k ∈ akeys l
  · simpa [hm] using h
  · rw [if_neg hm]
    refine List.Nodup.append h (List.nodup_singleton k) ?_
    intro a ha hb
    rw [List.mem_singleton] at hb
    subst hb
    exact hm ha

theorem scoreFoldDocs_keys_nodup (idf : ℝ) :
    ∀ (p : List (Str × PostingEntry)) (sc : List (Str × ℝ)) (cnt : List (Str × Nat)),
      (akeys sc).Nodup → (akeys cnt).Nodup →
      (akeys (scoreFoldDocs idf p sc cnt).1).Nodup ∧
      (akeys (scoreFoldDocs idf p sc cnt).2).Nodup := by
  intro p
  induction p with
  | nil => intro sc cnt h1 h2; exact ⟨h1, h2⟩
  | cons de rest ih =>
      intro sc cnt h1 h2
      obtain ⟨d0, e0⟩ := de
      exact ih _ _ (akeys_nodup_aupsert _ _ _ h1) (akeys_nodup_aupsert _ _ _ h2)

theorem scoreFoldTerms_keys_nodup (N : Nat) :
    ∀ (pmap : List (Str × List (Str × PostingEntry))) (sc : List (Str × ℝ))
      (cnt : List (Str × Nat)),
      (akeys sc).Nodup → (akeys cnt).Nodup →
      (akeys (scoreFoldTerms N pmap sc cnt).1).Nodup ∧
      (akeys (scoreFoldTerms N pmap sc cnt).2).Nodup := by
  intro pmap
  induction pmap with
  | nil => intro sc cnt h1 h2; exact ⟨h1, h2⟩
  | cons wp rest ih =>
      intro sc cnt h1 h2
      obtain ⟨w, p⟩ := wp
      have hd := scoreFoldDocs_keys_nodup (idfOf N p) p sc cnt h1 h2
      exact ih _ _ hd.1 hd.2

theorem akeys_map_snd {α β γ : Type} (f : α → β → γ) (l : List (α × β)) :
    akeys (l.map (fun p => (p.1, f p.1 p.2))) = akeys l := by
  induction l with
  | nil => rfl
  | cons hd t ih => simp only [akeys, List.map_cons] at ih ⊢; rw [ih]

theorem akeys_normalize_scores (l : List (Str × ℝ)) :
    akeys (normalize_scores l) = akeys l := by
  cases l with
  | nil => rfl
  | cons hd t =>
      obtain ⟨d0, s0⟩ := hd
      unfold normalize_scores
      dsimp only
      split
      · exact akeys_map_snd (fun _ _ => (1 : ℝ)) _
      · exact akeys_map_snd (fun _ v => (v - _) / (_ - _)) _

theorem finalScores_keys_nodup (N : Nat) (words : List Str)
    (postings : Str → List (Str × PostingEntry)) :
    (akeys (finalScores N words postings)).Nodup := by
  unfold finalScores
  by_cases hw : words = []
  · simp [hw, akeys]
  · simp only [hw, if_false]
    by_cases hp : pmapOf words postings = []
    · simp [hp, akeys]
    · simp only [hp, if_false]
      have h := scoreFoldTerms_keys_nodup N (pmapOf words postings) [] []
        List.nodup_nil List.nodup_nil
      have hk := akeys_map_snd
        (fun k (v : ℝ) => v * (2 : ℝ) ^ ((((alookup (scoreFoldTerms N (pmapOf words postings) [] []).2 k).getD 0 : Nat) : ℝ) / ((words.length : Nat) : ℝ) * 2))
        (scoreFoldTerms N (pmapOf words postings) [] []).1
      unfold applyBonus agetD
      rw [hk]
      exact h.1

theorem multi_word_search_keys_nodup (N : Nat) (words : List Str)
    (postings : Str → List (Str × PostingEntry)) (k : Nat) :
    (akeys (multi_word_search N words postings k)).Nodup := by
  unfold multi_word_search
  have hperm := (sortDesc_perm Prod.snd (finalScores N words postings)).map Prod.fst
  have hsorted : (akeys (sortDesc Prod.snd (finalScores N words postings))).Nodup :=
    hperm.nodup_iff.mpr (finalScores_keys_nodup N words postings)
  have htake : akeys ((sortDesc Prod.snd (finalScores N words postings)).take k)
      = (akeys (sortDesc Prod.snd (finalScores N words postings))).take k := by
    unfold akeys
    exact List.map_take Prod.fst _ k
  rw [htake]
  exact List.Nodup.sublist (List.take_sublist _ _) hsorted

theorem alookup_self_of_nodup {α β : Type} [DecidableEq α] :
    ∀ (l : List (α × β)), (akeys l).Nodup → ∀ x ∈ l, alookup l x.1 = some x.2 := by
  intro l
  induction l with
  | nil => intro _ x hx; simp at hx
  | cons hd t ih =>
      intro hnd x hx
      obtain ⟨a, b⟩ := hd
      simp only [akeys, List.map_cons, List.nodup_cons] at hnd
      rcases List.mem_cons.mp hx with rfl | hx2
      · simp [alookup]
      · have hne : a ≠ x.1 := by
          intro hh
          exact hnd.1 (hh ▸ List.mem_map_of_mem Prod.fst hx2)
        simp only [alookup, if_neg hne]
        exact ih hnd.2 x hx2

/-- C7, amended: with no embeddings file present, `hybrid_search(q)` returns
the *min-max normalized* keyword scores — for every query and every blend
weight `alpha`, the output is the descending sort of
`normalize_scores(multi_word_search(q, 2·top_k))` truncated to `top_k`.  The
document set is the keyword result's, and the ranking respects the keyword
ranking, but the scores are normalized to `[0,1]` (all `1.0` on ties), so the
output is *not* identical to `multi_word_search(q)` whenever the keyword
scores differ from their normalized values (see the counterexample). -/
theorem c7_amended_hybrid_normalized (N : Nat) (words : List Str)
    (postings : Str → List (Str × PostingEntry)) (top_k : Nat) (alpha : ℝ) :
    hybrid_search_noemb N words postings top_k alpha
      = (sortDesc Prod.snd (normalize_scores
          (multi_word_search N words postings (top_k * 2)))).take top_k := by
  simp only [hybrid_search_noemb]
  by_cases hkw : (multi_word_search N words postings (top_k * 2)).isEmpty
  · have hnil : multi_word_search N words postings (top_k * 2) = [] :=
      List.isEmpty_iff.mp hkw
    simp [hkw, hnil, normalize_scores, sortDesc]
  · simp only [hkw, Bool.false_eq_true, if_false]
    have hnd : (akeys (normalize_scores
        (multi_word_search N words postings (top_k * 2)))).Nodup := by
      rw [akeys_normalize_scores]
      exact multi_word_search_keys_nodup N words postings (top_k * 2)
    have hcomb : ∀ x ∈ normalize_scores (multi_word_search N words postings (top_k * 2)),
        (x.1, (1 - alpha) * agetD (normalize_scores
            (multi_word_search N words postings (top_k * 2))) x.1 0
          + alpha * agetD (normalize_scores
            (multi_word_search N words postings (top_k * 2))) x.1 0) = x := by
      intro x hx
      have hself := alookup_self_of_nodup _ hnd x hx
      unfold agetD
      rw [hself]
      simp only [Option.getD_some]
      have hval : (1 - alpha) * x.2 + alpha * x.2 = x.2 := by ring
      rw [hval]
    rw [List.map_congr_left hcomb, List.map_id']

/-- C7 counterexample: with no embeddings file, for the query `t` over a
corpus of 4 documents with a single matching document `A`,
`multi_word_search` returns `A` with its raw keyword score (which exceeds 1),
while `hybrid_search` returns `A` with the min-max normalized score `1.0` —
the outputs are not identical. -/
theorem c7_counterexample :
    hybrid_search_noemb 4 ["t".data] postingsOneDoc 30 (3 / 10)
      ≠ multi_word_search 4 ["t".data] postingsOneDoc 30 := by
  have hone : (1 : ℝ) < vC7 := by
    unfold vC7 score_doc idfOf entryTitle1
    have hlog2 : (0.6931471803 : ℝ) < Real.log 2 := Real.log_two_gt_d9
    have hexp : ((((0 + 1 : Nat) : ℝ)) / ((1 : Nat) : ℝ) * 2) = ((2 : Nat) : ℝ) := by
      norm_num
    rw [hexp, Real.rpow_natCast]
    norm_num
    nlinarith [hlog2]
  have hkw : multi_word_search 4 ["t".data] postingsOneDoc (30 * 2)
      = [("A".data, vC7)] := rfl
  have hkw30 : multi_word_search 4 ["t".data] postingsOneDoc 30
      = [("A".data, vC7)] := rfl
  have hnorm : normalize_scores [("A".data, vC7)] = [("A".data, (1 : ℝ))] := by
    unfold normalize_scores
    simp
  simp only [hybrid_search_noemb]
  rw [hkw, hkw30, hnorm]
  show [("A".data, (1 - (3 / 10 : ℝ)) * 1 + (3 / 10) * 1)] ≠ [("A".data, vC7)]
  intro h
  injection h with hh _
  have h2 : (1 - (3 / 10 : ℝ)) * 1 + (3 / 10) * 1 = vC7 := congrArg Prod.snd hh
  have h3 : (1 : ℝ) = vC7 := by linarith
  exact absurd h3.symm (ne_of_gt hone)

/-! ## C8: autocomplete -/

mutual
theorem collect_length_le (cap : Nat) :
    ∀ (n : TrieNode) (acc : List (Str × Nat)),
      acc.length ≤ cap → (collect cap n acc).length ≤ cap
  | .mk cs e wd f, acc, h => by
      unfold collect
      by_cases hc : cap ≤ acc.length
      · rw [if_pos hc]
        exact h
      · rw [if_neg hc]
        have hlt : acc.length < cap := Nat.lt_of_not_le hc
        refine collectChildren_length_le cap cs _ ?_
        cases e with
        | false => exact h
        | true =>
            cases wd with
            | none => exact h
            | some w =>
                dsimp only
                by_cases hw : w = []
                · simpa [hw] using h
                · simp only [hw, if_false, List.length_append, List.length_cons,
                    List.length_nil]
                  omega

theorem collectChildren_length_le (cap : Nat) :
    ∀ (cs : List (Char × TrieNode)) (acc : List (Str × Nat)),
      acc.length ≤ cap → (collectChildren cap cs acc).length ≤ cap
  | [], _, h => h
  | (_, t) :: rest, acc, h => by
      unfold collectChildren
      exact collectChildren_length_le cap rest _ (collect_length_le cap t acc h)
end

/-- C8: `autocomplete` returns the empty list for prefixes shorter than 2
characters and for prefixes with no trie path; the collection of end-of-word
descendants never exceeds the safety cap of `2 × limit` entries; the
collected entries are ranked by popularity frequency descending; at most
`limit` terms are returned; words shorter than 3 characters or with
non-alphabetic characters are never inserted; and on the lexicon
{machine: 10, machinery: 2}, `autocomplete("mach", 2) = [machine, machinery]`
and `autocomplete("m", 5) = []`. -/
theorem c8_autocomplete_behavior (t : TrieNode) (pre w : Str) (limit freq : Nat) :
    (pre.length < 2 → autocomplete t pre limit = []) ∧
    (walk t (pyLower pre) = none → autocomplete t pre limit = []) ∧
    (collect (limit * 2) t []).length ≤ limit * 2 ∧
    (sortDesc Prod.snd (collect (limit * 2) t [])).Sorted (fun a b => b.2 ≤ a.2) ∧
    (autocomplete t pre limit).length ≤ limit ∧
    (w.length < 3 ∨ pyIsAlpha w = false → trieInsert t w freq = t) ∧
    autocomplete trieEx "mach".data 2 = ["machine".data, "machinery".data] ∧
    autocomplete trieEx "m".data 5 = [] := by
  refine ⟨?_, ?_, ?_, ?_, ?_, ?_, by decide, by decide⟩
  · intro h
    unfold autocomplete
    rw [if_pos h]
  · intro h
    unfold autocomplete
    by_cases hl : pre.length < 2
    · rw [if_pos hl]
    · rw [if_neg hl, h]
  · exact collect_length_le (limit * 2) t [] (by simp)
  · exact sortDesc_sorted Prod.snd _
  · unfold autocomplete
    by_cases hl : pre.length < 2
    · simp [hl]
    · rw [if_neg hl]
      cases hwk : walk t (pyLower pre) with
      | none => simp
      | some node =>
          dsimp only
          rw [List.length_map]
          exact List.length_take_le _ _
  · intro h
    rcases h with h | h
    · simp [trieInsert, h]
    · simp [trieInsert, h]

/-- Witness: the short-prefix branch applied at the concrete example trie. -/
theorem c8_witness :
    ("m".data.length < 2) ∧ autocomplete trieEx "m".data 5 = [] :=
  ⟨by decide, (c8_autocomplete_behavior trieEx "m".data "ab".data 5 0).1 (by decide)⟩

end DSA
